import Mathlib

/-!
Verification of the non-B DNA motif scanner (`src/code.py`).

The core of the program is built on Python's `re` module: a catalog of
eleven motif patterns (`motifs`), an inverted-repeat detector
(`find_inverted_repeats`), a per-sequence scanner (`find_motifs`), a
parallel aggregator (`analyze_sequences_parallel`) and a batch collator
(`process_uploaded_files`).  We embed the fragment of Python regular
expressions actually used by the program — character classes, bounded and
unbounded greedy repetition, capturing groups and backreferences — as a
backtracking matcher that returns the candidate end positions in exactly
the engine's preference order (depth-first, greedy-longest-first), so that
the head of the returned list is the match Python's engine reports.
`finditer` is the standard non-overlapping left-to-right scan.

Sequences are `List Char`; positions are 0-based Nat offsets, converted to
the program's 1-based inclusive `Start`/`End` fields exactly where the
source does (`match.start() + 1`, `match.end()`).
-/

/-- Characters of a string literal, used to write sequences and motif names. -/
def str (s : String) : List Char := s.data

/-- Character of `s` at 0-based position `pos` (junk default, always guarded). -/
def chAt (s : List Char) (pos : Nat) : Char := s.getD pos '?'

/-- The half-open slice `s[a:b]` in Python notation. -/
def listSlice (s : List Char) (a b : Nat) : List Char := (s.drop a).take (b - a)

/-- Capture environment: most recent captures first, as (group, start, stop). -/
abbrev Caps : Type := List (Nat × Nat × Nat)

/-- Most recent capture recorded for group `n`. -/
def lookupCap (caps : Caps) (n : Nat) : Option (Nat × Nat) :=
  match caps with
  | [] => none
  | t :: rest => if t.1 = n then some (t.2.1, t.2.2) else lookupCap rest n

/-- The regular-expression fragment used by `src/code.py`:
character classes `[..]`, concatenation, capturing groups `(..)`,
backreferences `\n`, and greedy repetition `{k,}` / `{k,m}`. -/
inductive RE : Type where
  | cls (cs : List Char) : RE
  | seq (a b : RE) : RE
  | group (n : Nat) (r : RE) : RE
  | backref (n : Nat) : RE
  | rep (r : RE) (k : Nat) (m : Option Nat) : RE
deriving DecidableEq, Repr

/-- Least number of characters any match of `r` consumes. -/
def minLen : RE → Nat
  | RE.cls _ => 1
  | RE.seq a b => minLen a + minLen b
  | RE.group _ r => minLen r
  | RE.backref _ => 0
  | RE.rep r k _ => k * minLen r

/-- Decrement an optional repetition budget. -/
def decMax : Option Nat → Option Nat
  | none => none
  | some m => some (m - 1)

/-- The `k` mandatory iterations of a repetition, in backtracking order. -/
def minMat (bodyM : Nat → Caps → List (Nat × Caps)) :
    Nat → Nat → Caps → List (Nat × Caps)
  | 0, pos, caps => [(pos, caps)]
  | k + 1, pos, caps =>
      (bodyM pos caps).flatMap fun pc => minMat bodyM k pc.1 pc.2

/-- The optional (greedy) tail of a repetition: take another iteration first,
stop last, exactly the engine's preference order.  An iteration must make
progress and stay inside the input; the fuel supplied by `repMat` is
`slen + 1 - pos`, which these guards keep from ever running out. -/
def starMat (bodyM : Nat → Caps → List (Nat × Caps)) (slen : Nat) :
    Nat → Option Nat → Nat → Caps → List (Nat × Caps)
  | 0, _, pos, caps => [(pos, caps)]
  | fuel + 1, maxr, pos, caps =>
      (if maxr = some 0 then []
       else (bodyM pos caps).flatMap fun pc =>
         if pos < pc.1 ∧ pc.1 ≤ slen then
           starMat bodyM slen fuel (decMax maxr) pc.1 pc.2
         else [])
      ++ [(pos, caps)]

/-- Greedy repetition `{k,m?}`: the mandatory part then the greedy tail. -/
def repMat (bodyM : Nat → Caps → List (Nat × Caps)) (slen k : Nat)
    (m : Option Nat) (pos : Nat) (caps : Caps) : List (Nat × Caps) :=
  (minMat bodyM k pos caps).flatMap fun pc =>
    starMat bodyM slen (slen + 1 - pc.1) (m.map (· - k)) pc.1 pc.2

/-- All ways `r` can match `s` starting at `pos`, as (end, captures) pairs in
the backtracking engine's preference order; the head is Python's match. -/
def matchRE : RE → List Char → Nat → Caps → List (Nat × Caps)
  | RE.cls cs, s, pos, caps =>
      if pos < s.length ∧ chAt s pos ∈ cs then [(pos + 1, caps)] else []
  | RE.seq a b, s, pos, caps =>
      (matchRE a s pos caps).flatMap fun pc => matchRE b s pc.1 pc.2
  | RE.group n r, s, pos, caps =>
      (matchRE r s pos caps).map fun pc => (pc.1, (n, pos, pc.1) :: pc.2)
  | RE.backref n, s, pos, caps =>
      match lookupCap caps n with
      | none => []
      | some ab =>
          let t := listSlice s ab.1 ab.2
          if pos + t.length ≤ s.length ∧ listSlice s pos (pos + t.length) = t
          then [(pos + t.length, caps)] else []
  | RE.rep r k m, s, pos, caps =>
      repMat (fun p c => matchRE r s p c) s.length k m pos caps

/-- `re.finditer`: scan left to right, report the leftmost match at each
position, continue after its end (after an empty match, advance by one).
Each step advances the scan position, so fuel `s.length + 2` never runs out. -/
def finditerAux (pat : RE) (s : List Char) :
    Nat → Nat → List (Nat × Nat × Caps)
  | 0, _ => []
  | fuel + 1, pos =>
      if s.length < pos then []
      else
        match (matchRE pat s pos []).head? with
        | some ec =>
            if pos < ec.1 ∧ ec.1 ≤ s.length then
              (pos, ec.1, ec.2) :: finditerAux pat s fuel ec.1
            else (pos, ec.1, ec.2) :: finditerAux pat s fuel (pos + 1)
        | none => finditerAux pat s fuel (pos + 1)

/-- All non-overlapping matches of `pat` in `s`, leftmost first. -/
def finditer (pat : RE) (s : List Char) : List (Nat × Nat × Caps) :=
  finditerAux pat s (s.length + 2) 0

/-- One row of the scanner's output: the dict
`{"Motif", "Start", "End", "Matched Sequence"}` built in `src/code.py`. -/
structure MatchRecord : Type where
  Motif : List Char
  Start : Nat
  End : Nat
  MatchedSequence : List Char
deriving DecidableEq, Repr

/-- The record built for one regex match: `Start = match.start() + 1`,
`End = match.end()`, `Matched Sequence = sequence[match.start():match.end()]`. -/
def mkRecord (name : List Char) (s : List Char) (t : Nat × Nat × Caps) :
    MatchRecord :=
  { Motif := name, Start := t.1 + 1, End := t.2.1,
    MatchedSequence := listSlice s t.1 t.2.1 }

/-- Text captured by group `n` (groups used by the program are always bound). -/
def groupText (s : List Char) (caps : Caps) (n : Nat) : List Char :=
  match lookupCap caps n with
  | some ab => listSlice s ab.1 ab.2
  | none => []

/-- The motif catalog of `src/code.py`, in dict order.  Note the I-Motif
class `[A,T]`, which contains a literal comma exactly as in the source. -/
def motifs : List (List Char × RE) :=
  [ (str "Slipped DNA",
      RE.seq (RE.group 1 (RE.rep (RE.cls (str "ATGC")) 2 (some 6)))
             (RE.rep (RE.backref 1) 1 none)),
    (str "Z-DNA",
      RE.rep (RE.group 1 (RE.seq (RE.cls (str "C")) (RE.cls (str "G")))) 6 none),
    (str "Short Tandem Repeat",
      RE.seq (RE.group 1 (RE.rep (RE.cls (str "ATGC")) 2 (some 6)))
             (RE.rep (RE.backref 1) 2 none)),
    (str "I-Motif",
      RE.group 1 (RE.rep (RE.group 2
        (RE.seq (RE.cls (str "C"))
          (RE.seq (RE.cls (str "A,T")) (RE.cls (str "C"))))) 3 none)),
    (str "R-Loop",
      RE.group 1 (RE.seq (RE.rep (RE.cls (str "A")) 4 none)
        (RE.seq (RE.rep (RE.cls (str "CG")) 2 none)
                (RE.rep (RE.cls (str "A")) 4 none)))),
    (str "Cruciform",
      RE.seq (RE.group 1 (RE.rep (RE.cls (str "ATGC")) 4 none))
             (RE.rep (RE.backref 1) 2 none)),
    (str "G-Quadruplex",
      RE.group 1 (RE.seq (RE.rep (RE.cls (str "G")) 3 none)
        (RE.seq (RE.rep (RE.cls (str "ATGC")) 1 (some 5))
        (RE.seq (RE.rep (RE.cls (str "G")) 3 none)
        (RE.seq (RE.rep (RE.cls (str "ATGC")) 1 (some 5))
        (RE.seq (RE.rep (RE.cls (str "G")) 3 none)
        (RE.seq (RE.rep (RE.cls (str "ATGC")) 1 (some 5))
                (RE.rep (RE.cls (str "G")) 3 none)))))))),
    (str "Hairpin",
      RE.seq (RE.group 1 (RE.rep (RE.cls (str "ATGC")) 4 none))
             (RE.rep (RE.backref 1) 1 none)),
    (str "Triplex",
      RE.group 1 (RE.seq (RE.rep (RE.cls (str "A")) 3 none)
        (RE.seq (RE.rep (RE.cls (str "ATGC")) 1 none)
                (RE.rep (RE.cls (str "A")) 3 none)))),
    (str "H-DNA",
      RE.group 1 (RE.seq (RE.rep (RE.cls (str "AG")) 4 none)
        (RE.seq (RE.rep (RE.cls (str "CT")) 4 none)
                (RE.rep (RE.cls (str "AG")) 4 none)))),
    (str "Triplex-forming oligonucleotide (TFO)",
      RE.group 1 (RE.seq (RE.rep (RE.cls (str "GATC")) 6 none)
        (RE.seq (RE.rep (RE.cls (str "AG")) 4 none)
                (RE.rep (RE.cls (str "CT")) 4 none)))) ]

/-- The inverted-repeat pattern `([ATGC]{3,})[ATGC]{0,10}([ATGC]{3,})`. -/
def irPattern : RE :=
  RE.seq (RE.group 1 (RE.rep (RE.cls (str "ATGC")) 3 none))
    (RE.seq (RE.rep (RE.cls (str "ATGC")) 0 (some 10))
            (RE.group 2 (RE.rep (RE.cls (str "ATGC")) 3 none)))

/-- `find_inverted_repeats` of `src/code.py`: keep a candidate only when
`part1 == part2[::-1]`, reporting the whole matched span. -/
def find_inverted_repeats (sequence : List Char) : List MatchRecord :=
  (finditer irPattern sequence).filterMap fun t =>
    let part1 := groupText sequence t.2.2 1
    let part2 := (groupText sequence t.2.2 2).reverse
    if part1 = part2 then
      some { Motif := str "Inverted Repeat", Start := t.1 + 1, End := t.2.1,
             MatchedSequence := listSlice sequence t.1 t.2.1 }
    else none

/-- `find_motifs` of `src/code.py`: every catalog rule in dict order, then
the inverted-repeat records appended at the end. -/
def find_motifs (sequence : List Char) : List MatchRecord :=
  (motifs.flatMap fun nr => (finditer nr.2 sequence).map (mkRecord nr.1 sequence))
    ++ find_inverted_repeats sequence

/-- One FASTA record as handed to the core by the ingestion layer. -/
structure SeqRecord : Type where
  id : List Char
  seq : List Char
deriving DecidableEq, Repr

/-- One row of the output table:
`{"Sequence ID", **motif, "Length"}` as built in `analyze_sequences_parallel`. -/
structure ResultRow : Type where
  SequenceID : List Char
  Motif : List Char
  Start : Nat
  End : Nat
  MatchedSequence : List Char
  Length : Nat
deriving DecidableEq, Repr

/-- `analyze_sequences_parallel` of `src/code.py`.  `executor.map` hands the
per-sequence results back in input order, which a pure `List.map` models;
the `zip` loop then decorates each record with its sequence's id and length. -/
def analyze_sequences_parallel (sequences : List SeqRecord) : List ResultRow :=
  (sequences.zip (sequences.map fun record => find_motifs record.seq)).flatMap
    fun rm => rm.2.map fun m =>
      { SequenceID := rm.1.id, Motif := m.Motif, Start := m.Start,
        End := m.End, MatchedSequence := m.MatchedSequence,
        Length := rm.1.seq.length }

/-- `list(executor.map(find_motifs, ...))` with a fallible worker: iterating
the results re-raises the first failing task's exception, which `Except`
models; the scan function is a parameter so that a worker failure can be
expressed at all (the concrete `find_motifs` is total). -/
def mapScan (scan : List Char → Except String (List MatchRecord)) :
    List SeqRecord → Except String (List (List MatchRecord))
  | [] => Except.ok []
  | r :: rest =>
      match scan r.seq with
      | Except.error e => Except.error e
      | Except.ok v =>
          match mapScan scan rest with
          | Except.error e => Except.error e
          | Except.ok vs => Except.ok (v :: vs)

/-- `analyze_sequences_parallel` with a fallible worker: the whole batch
either fails with the first worker error or yields the decorated rows;
there is no `try`/`except` in the core, so nothing is caught. -/
def analyze_sequences_parallelE
    (scan : List Char → Except String (List MatchRecord))
    (sequences : List SeqRecord) : Except String (List ResultRow) :=
  match mapScan scan sequences with
  | Except.error e => Except.error e
  | Except.ok results =>
      Except.ok ((sequences.zip results).flatMap fun rm =>
        rm.2.map fun m =>
          { SequenceID := rm.1.id, Motif := m.Motif, Start := m.Start,
            End := m.End, MatchedSequence := m.MatchedSequence,
            Length := rm.1.seq.length })

/-- The collation step of `process_uploaded_files`: the iterated
`pd.concat([all_results, results_df], ignore_index=True)`. -/
def collate (tables : List (List ResultRow)) : List ResultRow :=
  tables.foldl (fun all_results t => all_results ++ t) []

/-- `process_uploaded_files` of `src/code.py`, with each uploaded file
already parsed to its sequence records (FASTA parsing is the external
ingestion collaborator). -/
def process_uploaded_files (files : List (List SeqRecord)) : List ResultRow :=
  files.foldl
    (fun all_results f => all_results ++ analyze_sequences_parallel f) []

/-! ### Basic properties of the matcher -/

/-- The head of a list is a member. -/
theorem head?_mem {α : Type _} {l : List α} {a : α} (h : l.head? = some a) :
    a ∈ l := by
  cases l with
  | nil => simp at h
  | cons x xs =>
      simp only [List.head?_cons, Option.some.injEq] at h
      exact h ▸ List.mem_cons_self x xs

/-- Mandatory repetition iterations never move the position backwards. -/
theorem minMat_mono (bodyM : Nat → Caps → List (Nat × Caps))
    (hb : ∀ p c pc, pc ∈ bodyM p c → p ≤ pc.1) :
    ∀ k pos caps pc, pc ∈ minMat bodyM k pos caps → pos ≤ pc.1 := by
  intro k
  induction k with
  | zero =>
      intro pos caps pc h
      simp only [minMat, List.mem_singleton] at h
      simp [h]
  | succ k ih =>
      intro pos caps pc h
      simp only [minMat, List.mem_flatMap] at h
      obtain ⟨pc', hpc', h⟩ := h
      exact le_trans (hb _ _ _ hpc') (ih _ _ _ h)

/-- The greedy tail never moves the position backwards. -/
theorem starMat_ge (bodyM : Nat → Caps → List (Nat × Caps)) (slen : Nat) :
    ∀ fuel maxr pos caps pc, pc ∈ starMat bodyM slen fuel maxr pos caps →
      pos ≤ pc.1 := by
  intro fuel
  induction fuel with
  | zero =>
      intro maxr pos caps pc h
      simp only [starMat, List.mem_singleton] at h
      simp [h]
  | succ fuel ih =>
      intro maxr pos caps pc h
      simp only [starMat, List.mem_append, List.mem_singleton] at h
      rcases h with h | h
      · split at h
        · simp at h
        · simp only [List.mem_flatMap] at h
          obtain ⟨pc', hpc', h⟩ := h
          split at h
          · next hcond => exact le_trans (le_of_lt hcond.1) (ih _ _ _ _ h)
          · simp at h
      · simp [h]

/-- The greedy tail stays inside the input. -/
theorem starMat_le (bodyM : Nat → Caps → List (Nat × Caps)) (slen : Nat) :
    ∀ fuel maxr pos caps pc, pc ∈ starMat bodyM slen fuel maxr pos caps →
      pos ≤ slen → pc.1 ≤ slen := by
  intro fuel
  induction fuel with
  | zero =>
      intro maxr pos caps pc h hpos
      simp only [starMat, List.mem_singleton] at h
      simp [h, hpos]
  | succ fuel ih =>
      intro maxr pos caps pc h hpos
      simp only [starMat, List.mem_append, List.mem_singleton] at h
      rcases h with h | h
      · split at h
        · simp at h
        · simp only [List.mem_flatMap] at h
          obtain ⟨pc', hpc', h⟩ := h
          split at h
          · next hcond => exact ih _ _ _ _ h hcond.2
          · simp at h
      · simp [h, hpos]

/-- Mandatory iterations stay inside the input when the body does. -/
theorem minMat_le (bodyM : Nat → Caps → List (Nat × Caps)) (slen : Nat)
    (hb : ∀ p c pc, pc ∈ bodyM p c → p ≤ slen → pc.1 ≤ slen) :
    ∀ k pos caps pc, pc ∈ minMat bodyM k pos caps → pos ≤ slen →
      pc.1 ≤ slen := by
  intro k
  induction k with
  | zero =>
      intro pos caps pc h hpos
      simp only [minMat, List.mem_singleton] at h
      simp [h, hpos]
  | succ k ih =>
      intro pos caps pc h hpos
      simp only [minMat, List.mem_flatMap] at h
      obtain ⟨pc', hpc', h⟩ := h
      exact ih _ _ _ h (hb _ _ _ hpc' hpos)

/-- A match never moves backwards. -/
theorem matchRE_mono :
    ∀ (r : RE) (s : List Char) (pos : Nat) (caps : Caps) pc,
      pc ∈ matchRE r s pos caps → pos ≤ pc.1 := by
  intro r
  induction r with
  | cls cs =>
      intro s pos caps pc h
      simp only [matchRE] at h
      split at h
      · simp only [List.mem_singleton] at h; simp [h]
      · simp at h
  | seq a b iha ihb =>
      intro s pos caps pc h
      simp only [matchRE, List.mem_flatMap] at h
      obtain ⟨pc', hpc', h⟩ := h
      exact le_trans (iha _ _ _ _ hpc') (ihb _ _ _ _ h)
  | group n r ih =>
      intro s pos caps pc h
      simp only [matchRE, List.mem_map] at h
      obtain ⟨pc', hpc', h⟩ := h
      have := ih _ _ _ _ hpc'
      simp [← h, this]
  | backref n =>
      intro s pos caps pc h
      simp only [matchRE] at h
      rcases hc : lookupCap caps n with _ | ab <;> simp only [hc] at h
      · simp at h
      · split at h
        · simp only [List.mem_singleton] at h
          subst h
          exact Nat.le_add_right pos _
        · simp at h
  | rep r k m ih =>
      intro s pos caps pc h
      simp only [matchRE, repMat, List.mem_flatMap] at h
      obtain ⟨pc', hpc', h⟩ := h
      exact le_trans
        (minMat_mono _ (fun p c pc hm => ih s p c pc hm) _ _ _ _ hpc')
        (starMat_ge _ _ _ _ _ _ _ h)

/-- A match stays inside the input. -/
theorem matchRE_le :
    ∀ (r : RE) (s : List Char) (pos : Nat) (caps : Caps) pc,
      pc ∈ matchRE r s pos caps → pos ≤ s.length → pc.1 ≤ s.length := by
  intro r
  induction r with
  | cls cs =>
      intro s pos caps pc h hpos
      simp only [matchRE] at h
      split at h
      · next hcond =>
          simp only [List.mem_singleton] at h
          simp [h]; omega
      · simp at h
  | seq a b iha ihb =>
      intro s pos caps pc h hpos
      simp only [matchRE, List.mem_flatMap] at h
      obtain ⟨pc', hpc', h⟩ := h
      exact ihb _ _ _ _ h (iha _ _ _ _ hpc' hpos)
  | group n r ih =>
      intro s pos caps pc h hpos
      simp only [matchRE, List.mem_map] at h
      obtain ⟨pc', hpc', h⟩ := h
      have := ih _ _ _ _ hpc' hpos
      simp [← h, this]
  | backref n =>
      intro s pos caps pc h hpos
      simp only [matchRE] at h
      rcases hc : lookupCap caps n with _ | ab <;> simp only [hc] at h
      · simp at h
      · split at h
        · next hcond =>
            simp only [List.mem_singleton] at h
            subst h
            exact hcond.1
        · simp at h
  | rep r k m ih =>
      intro s pos caps pc h hpos
      simp only [matchRE, repMat, List.mem_flatMap] at h
      obtain ⟨pc', hpc', h⟩ := h
      exact starMat_le _ _ _ _ _ _ _ h
        (minMat_le _ _ (fun p c pc hm hp => ih s p c pc hm hp) _ _ _ _ hpc' hpos)

/-- Mandatory iterations consume at least `k` times the body's minimum. -/
theorem minMat_minLen (bodyM : Nat → Caps → List (Nat × Caps)) (mu : Nat)
    (hb : ∀ p c pc, pc ∈ bodyM p c → p + mu ≤ pc.1) :
    ∀ k pos caps pc, pc ∈ minMat bodyM k pos caps → pos + k * mu ≤ pc.1 := by
  intro k
  induction k with
  | zero =>
      intro pos caps pc h
      simp only [minMat, List.mem_singleton] at h
      simp [h]
  | succ k ih =>
      intro pos caps pc h
      simp only [minMat, List.mem_flatMap] at h
      obtain ⟨pc', hpc', h⟩ := h
      have h1 := hb _ _ _ hpc'
      have h2 := ih _ _ _ h
      have : (k + 1) * mu = mu + k * mu := by ring
      omega

/-- Every match consumes at least `minLen` characters. -/
theorem matchRE_minLen :
    ∀ (r : RE) (s : List Char) (pos : Nat) (caps : Caps) pc,
      pc ∈ matchRE r s pos caps → pos + minLen r ≤ pc.1 := by
  intro r
  induction r with
  | cls cs =>
      intro s pos caps pc h
      simp only [matchRE] at h
      split at h
      · simp only [List.mem_singleton] at h; simp [h, minLen]
      · simp at h
  | seq a b iha ihb =>
      intro s pos caps pc h
      simp only [matchRE, List.mem_flatMap] at h
      obtain ⟨pc', hpc', h⟩ := h
      have h1 := iha _ _ _ _ hpc'
      have h2 := ihb _ _ _ _ h
      simp only [minLen]
      omega
  | group n r ih =>
      intro s pos caps pc h
      simp only [matchRE, List.mem_map] at h
      obtain ⟨pc', hpc', h⟩ := h
      have := ih _ _ _ _ hpc'
      simp only [minLen, ← h]
      exact this
  | backref n =>
      intro s pos caps pc h
      simp only [matchRE] at h
      rcases hc : lookupCap caps n with _ | ab <;> simp only [hc] at h
      · simp at h
      · split at h
        · simp only [List.mem_singleton] at h
          subst h
          simp only [minLen]
          omega
        · simp at h
  | rep r k m ih =>
      intro s pos caps pc h
      simp only [matchRE, repMat, List.mem_flatMap] at h
      obtain ⟨pc', hpc', h⟩ := h
      have h1 := minMat_minLen _ _ (fun p c pc hm => ih s p c pc hm) _ _ _ _ hpc'
      have h2 := starMat_ge _ _ _ _ _ _ _ h
      simp only [minLen]
      omega

/-- Mandatory iterations of a capture-free body leave the captures alone. -/
theorem minMat_caps (bodyM : Nat → Caps → List (Nat × Caps))
    (hb : ∀ p c pc, pc ∈ bodyM p c → pc.2 = c) :
    ∀ k pos caps pc, pc ∈ minMat bodyM k pos caps → pc.2 = caps := by
  intro k
  induction k with
  | zero =>
      intro pos caps pc h
      simp only [minMat, List.mem_singleton] at h
      simp [h]
  | succ k ih =>
      intro pos caps pc h
      simp only [minMat, List.mem_flatMap] at h
      obtain ⟨pc', hpc', h⟩ := h
      exact (ih _ _ _ h).trans (hb _ _ _ hpc')

/-- The greedy tail of a capture-free body leaves the captures alone. -/
theorem starMat_caps (bodyM : Nat → Caps → List (Nat × Caps)) (slen : Nat)
    (hb : ∀ p c pc, pc ∈ bodyM p c → pc.2 = c) :
    ∀ fuel maxr pos caps pc, pc ∈ starMat bodyM slen fuel maxr pos caps →
      pc.2 = caps := by
  intro fuel
  induction fuel with
  | zero =>
      intro maxr pos caps pc h
      simp only [starMat, List.mem_singleton] at h
      simp [h]
  | succ fuel ih =>
      intro maxr pos caps pc h
      simp only [starMat, List.mem_append, List.mem_singleton] at h
      rcases h with h | h
      · split at h
        · simp at h
        · simp only [List.mem_flatMap] at h
          obtain ⟨pc', hpc', h⟩ := h
          split at h
          · exact (ih _ _ _ _ h).trans (hb _ _ _ hpc')
          · simp at h
      · simp [h]

/-- A character class does not record captures. -/
theorem cls_caps (cs : List Char) (s : List Char) (pos : Nat) (caps : Caps)
    (pc : Nat × Caps) (h : pc ∈ matchRE (RE.cls cs) s pos caps) :
    pc.2 = caps := by
  simp only [matchRE] at h
  split at h
  · simp only [List.mem_singleton] at h; simp [h]
  · simp at h

/-- A repeated character class does not record captures. -/
theorem rep_cls_caps (cs : List Char) (k : Nat) (m : Option Nat)
    (s : List Char) (pos : Nat) (caps : Caps) (pc : Nat × Caps)
    (h : pc ∈ matchRE (RE.rep (RE.cls cs) k m) s pos caps) : pc.2 = caps := by
  simp only [matchRE, repMat, List.mem_flatMap] at h
  obtain ⟨pc', hpc', h⟩ := h
  exact (starMat_caps _ _ (fun p c pc hm => cls_caps cs s p c pc hm)
      _ _ _ _ _ h).trans
    (minMat_caps _ (fun p c pc hm => cls_caps cs s p c pc hm) _ _ _ _ hpc')

/-! ### Properties of `finditer` -/

/-- Every reported match lies at or after the scan position, inside the
input, and is the head of the matcher's candidate list at its start. -/
theorem finditerAux_mem (pat : RE) (s : List Char) :
    ∀ fuel pos t, t ∈ finditerAux pat s fuel pos →
      pos ≤ t.1 ∧ t.1 ≤ s.length ∧
        (matchRE pat s t.1 []).head? = some (t.2.1, t.2.2) := by
  intro fuel
  induction fuel with
  | zero => intro pos t h; simp [finditerAux] at h
  | succ fuel ih =>
      intro pos t h
      simp only [finditerAux] at h
      split at h
      · simp at h
      · next hpos =>
          rcases hE : (matchRE pat s pos []).head? with _ | ec <;>
            simp only [hE] at h
          · have := ih _ _ h
            refine ⟨by omega, this.2⟩
          · by_cases hcond : pos < ec.1 ∧ ec.1 ≤ s.length
            · rw [if_pos hcond, List.mem_cons] at h
              rcases h with h | h
              · subst h
                exact ⟨le_refl _, by omega, hE⟩
              · have := ih _ _ h
                exact ⟨by omega, this.2⟩
            · rw [if_neg hcond, List.mem_cons] at h
              rcases h with h | h
              · subst h
                exact ⟨le_refl _, by omega, hE⟩
              · have := ih _ _ h
                exact ⟨by omega, this.2⟩

/-- For a pattern that cannot match the empty string, the reported matches
are in strictly increasing, non-overlapping position order. -/
theorem finditerAux_pairwise (pat : RE) (s : List Char)
    (hmin : 1 ≤ minLen pat) :
    ∀ fuel pos, List.Pairwise (fun a b : Nat × Nat × Caps => a.2.1 ≤ b.1)
      (finditerAux pat s fuel pos) := by
  intro fuel
  induction fuel with
  | zero => intro pos; simp [finditerAux]
  | succ fuel ih =>
      intro pos
      simp only [finditerAux]
      split
      · simp
      · next hpos =>
          rcases hE : (matchRE pat s pos []).head? with _ | ec <;>
            simp only [hE]
          · exact ih _
          · have hm := head?_mem hE
            have h1 := matchRE_minLen pat s pos [] ec hm
            have h2 := matchRE_le pat s pos [] ec hm (by omega)
            rw [if_pos (show pos < ec.1 ∧ ec.1 ≤ s.length by omega)]
            exact List.Pairwise.cons
              (fun b hb => (finditerAux_mem pat s _ _ _ hb).1) (ih _)

/-- Every match reported by `finditer` is sound and inside the input. -/
theorem finditer_mem (pat : RE) (s : List Char) (t : Nat × Nat × Caps)
    (h : t ∈ finditer pat s) :
    t.1 ≤ s.length ∧ (matchRE pat s t.1 []).head? = some (t.2.1, t.2.2) := by
  have := finditerAux_mem pat s _ _ _ h
  exact ⟨this.2.1, this.2.2⟩

/-- Matches of a non-empty pattern are non-overlapping and ordered. -/
theorem finditer_pairwise (pat : RE) (s : List Char) (hmin : 1 ≤ minLen pat) :
    List.Pairwise (fun a b : Nat × Nat × Caps => a.2.1 ≤ b.1)
      (finditer pat s) :=
  finditerAux_pairwise pat s hmin _ _

/-- Bounds of a single `finditer` match of a non-empty pattern. -/
theorem finditer_bounds (pat : RE) (s : List Char) (hmin : 1 ≤ minLen pat)
    (t : Nat × Nat × Caps) (h : t ∈ finditer pat s) :
    t.1 < t.2.1 ∧ t.2.1 ≤ s.length := by
  obtain ⟨h1, h2⟩ := finditer_mem pat s t h
  have hm := head?_mem h2
  have h3 := matchRE_minLen pat s t.1 [] _ hm
  have h4 := matchRE_le pat s t.1 [] _ hm h1
  simp only at h3 h4
  exact ⟨by omega, h4⟩

/-! ### Facts about the concrete catalog -/

/-- Every catalog pattern consumes at least one character per match. -/
theorem motifs_minLen_pos : ∀ p ∈ motifs, 1 ≤ minLen p.2 := by decide

/-- The inverted-repeat pattern consumes at least six characters. -/
theorem irPattern_minLen : minLen irPattern = 6 := by decide

/-- Motif names identify catalog entries uniquely. -/
theorem motifs_names_inj : ∀ a ∈ motifs, ∀ b ∈ motifs, a.1 = b.1 → a = b := by
  decide

/-- Inverted-repeat records carry the literal tag "Inverted Repeat". -/
theorem fir_motif (s : List Char) (rec : MatchRecord)
    (h : rec ∈ find_inverted_repeats s) :
    rec.Motif = str "Inverted Repeat" := by
  simp only [find_inverted_repeats, List.mem_filterMap] at h
  obtain ⟨t, ht, hrec⟩ := h
  split at hrec
  · simp only [Option.some.injEq] at hrec
    simp [← hrec]
  · simp at hrec

/-- Inverted-repeat records come with their `finditer` triple. -/
theorem fir_elim (s : List Char) (rec : MatchRecord)
    (h : rec ∈ find_inverted_repeats s) :
    ∃ t ∈ finditer irPattern s,
      rec = { Motif := str "Inverted Repeat", Start := t.1 + 1, End := t.2.1,
              MatchedSequence := listSlice s t.1 t.2.1 } := by
  simp only [find_inverted_repeats, List.mem_filterMap] at h
  obtain ⟨t, ht, hrec⟩ := h
  split at hrec
  · simp only [Option.some.injEq] at hrec
    exact ⟨t, ht, hrec.symm⟩
  · simp at hrec

/-- C1.  For every input sequence, every `MatchRecord` returned by
`find_motifs` — the eleven catalog rules and the appended inverted-repeat
records alike — satisfies `1 ≤ Start ≤ End ≤ length` with 1-based
inclusive positions. -/
theorem find_motifs_bounds (s : List Char) (rec : MatchRecord)
    (h : rec ∈ find_motifs s) :
    1 ≤ rec.Start ∧ rec.Start ≤ rec.End ∧ rec.End ≤ s.length := by
  simp only [find_motifs, List.mem_append] at h
  rcases h with h | h
  · simp only [List.mem_flatMap, List.mem_map] at h
    obtain ⟨nr, hnr, t, ht, hrec⟩ := h
    have hmin : 1 ≤ minLen nr.2 := motifs_minLen_pos nr hnr
    have hb := finditer_bounds nr.2 s hmin t ht
    subst hrec
    simp only [mkRecord]
    exact ⟨by omega, by omega, hb.2⟩
  · obtain ⟨t, ht, hrec⟩ := fir_elim s rec h
    have hb := finditer_bounds irPattern s (by rw [irPattern_minLen]; omega)
      t ht
    subst hrec
    dsimp only
    exact ⟨by omega, by omega, hb.2⟩

/-- C1 witness: the concrete Slipped-DNA record on "AAAA". -/
theorem find_motifs_bounds_witness :
    1 ≤ (MatchRecord.mk (str "Slipped DNA") 1 4 (str "AAAA")).Start ∧
      (MatchRecord.mk (str "Slipped DNA") 1 4 (str "AAAA")).Start ≤
        (MatchRecord.mk (str "Slipped DNA") 1 4 (str "AAAA")).End ∧
      (MatchRecord.mk (str "Slipped DNA") 1 4 (str "AAAA")).End ≤
        (str "AAAA").length :=
  find_motifs_bounds (str "AAAA")
    (MatchRecord.mk (str "Slipped DNA") 1 4 (str "AAAA")) (by decide)

/-- C6.  Within one sequence, no two distinct matches produced for the same
catalog rule overlap: their 1-based inclusive `[Start, End]` intervals are
disjoint (one ends strictly before the other starts). -/
theorem find_motifs_same_rule_disjoint (s : List Char) (r1 r2 : MatchRecord)
    (h1 : r1 ∈ find_motifs s) (h2 : r2 ∈ find_motifs s)
    (hm : r1.Motif = r2.Motif) (hir : r1.Motif ≠ str "Inverted Repeat")
    (hne : r1 ≠ r2) :
    r1.End < r2.Start ∨ r2.End < r1.Start := by
  simp only [find_motifs, List.mem_append] at h1 h2
  rcases h1 with h1 | h1
  case inr => exact absurd (fir_motif s r1 h1) hir
  rcases h2 with h2 | h2
  case inr =>
      rw [hm] at hir
      exact absurd (fir_motif s r2 h2) hir
  simp only [List.mem_flatMap, List.mem_map] at h1 h2
  obtain ⟨nr1, hnr1, t1, ht1, hrec1⟩ := h1
  obtain ⟨nr2, hnr2, t2, ht2, hrec2⟩ := h2
  have hname : nr1.1 = nr2.1 := by
    have e1 : r1.Motif = nr1.1 := by rw [← hrec1]; rfl
    have e2 : r2.Motif = nr2.1 := by rw [← hrec2]; rfl
    rw [← e1, ← e2, hm]
  have heq : nr1 = nr2 := motifs_names_inj nr1 hnr1 nr2 hnr2 hname
  subst heq
  have hmin : 1 ≤ minLen nr1.2 := motifs_minLen_pos nr1 hnr1
  have hpw := (finditer_pairwise nr1.2 s hmin).imp
    (R := fun a b : Nat × Nat × Caps => a.2.1 ≤ b.1)
    (S := fun a b : Nat × Nat × Caps => a.2.1 ≤ b.1 ∨ b.2.1 ≤ a.1) Or.inl
  have hsym : Symmetric
      (fun a b : Nat × Nat × Caps => a.2.1 ≤ b.1 ∨ b.2.1 ≤ a.1) :=
    fun a b h => h.symm
  have htne : t1 ≠ t2 := by
    intro hcontra
    rw [hcontra] at hrec1
    exact hne (hrec1 ▸ hrec2 ▸ rfl)
  have hor := hpw.forall hsym ht1 ht2 htne
  subst hrec1
  subst hrec2
  simp only [mkRecord]
  omega

/-- C6 witness: the two Slipped-DNA records on "AAAAXAAAA" are disjoint. -/
theorem find_motifs_same_rule_disjoint_witness :
    (MatchRecord.mk (str "Slipped DNA") 1 4 (str "AAAA")).End <
        (MatchRecord.mk (str "Slipped DNA") 6 9 (str "AAAA")).Start ∨
      (MatchRecord.mk (str "Slipped DNA") 6 9 (str "AAAA")).End <
        (MatchRecord.mk (str "Slipped DNA") 1 4 (str "AAAA")).Start :=
  find_motifs_same_rule_disjoint (str "AAAAXAAAA")
    (MatchRecord.mk (str "Slipped DNA") 1 4 (str "AAAA"))
    (MatchRecord.mk (str "Slipped DNA") 6 9 (str "AAAA"))
    (by decide) (by decide) (by decide) (by decide) (by decide)

/-- C4.  On "CGCGCGCGCGCGCG" (seven times "CG", length 14) the scanner
returns a "Z-DNA" record spanning the whole string, `Start = 1`, `End = 14`. -/
theorem zdna_full_span :
    ∃ rec ∈ find_motifs (str "CGCGCGCGCGCGCG"),
      rec.Motif = str "Z-DNA" ∧ rec.Start = 1 ∧ rec.End = 14 := by decide

/-- C5 failing input: the catalog's I-Motif rule `((C[A,T]C){3,})` matches
"C,CC,CC,C", whose matched text contains the non-ATGC symbol ','
(the class `[A,T]` contains a literal comma). -/
theorem imotif_comma_match :
    ∃ rec ∈ find_motifs (str "C,CC,CC,C"),
      rec.Motif = str "I-Motif" ∧ ',' ∈ rec.MatchedSequence := by decide

/-- Folding append over a list of tables is flattening. -/
theorem foldl_append_flatten (ts : List (List ResultRow)) :
    ∀ acc : List ResultRow,
      ts.foldl (fun all_results t => all_results ++ t) acc =
        acc ++ ts.flatten := by
  induction ts with
  | nil => intro acc; simp
  | cons t rest ih =>
      intro acc
      simp only [List.foldl_cons, List.flatten_cons, ih, List.append_assoc]

/-- C7.  The batch collator concatenates the input tables in input order,
preserving every row (no deduplication, no re-sorting); three tables of
3, 0 and 2 rows give exactly their 5 rows in that order; an empty input
gives the empty table; and `process_uploaded_files` is exactly this
collation of the per-file analysis tables. -/
theorem collate_concat (ts : List (List ResultRow))
    (t1 t2 t3 : List ResultRow) (files : List (List SeqRecord)) :
    collate ts = ts.flatten ∧
      (collate [t1, t2, t3]).length =
        t1.length + t2.length + t3.length ∧
      collate [] = ([] : List ResultRow) ∧
      process_uploaded_files files =
        collate (files.map analyze_sequences_parallel) := by
  refine ⟨?_, ?_, rfl, ?_⟩
  · simpa using foldl_append_flatten ts []
  · simp only [collate]
    simp [foldl_append_flatten]
    omega
  · simp only [process_uploaded_files, collate, List.foldl_map]

/-- C8.  The aggregator's table is the per-sequence match lists in input
order (grouped by sequence, never by completion order), each record
decorated with its sequence's id and length. -/
theorem analyze_grouped (sequences : List SeqRecord) :
    analyze_sequences_parallel sequences =
      sequences.flatMap fun record =>
        (find_motifs record.seq).map fun m =>
          { SequenceID := record.id, Motif := m.Motif, Start := m.Start,
            End := m.End, MatchedSequence := m.MatchedSequence,
            Length := record.seq.length } := by
  induction sequences with
  | nil => rfl
  | cons r rest ih =>
      simp only [analyze_sequences_parallel, List.map_cons,
        List.zip_cons_cons, List.flatMap_cons] at ih ⊢
      rw [ih]

/-- `list(executor.map(...))` fails with the first failing task's error. -/
theorem mapScan_error (scan : List Char → Except String (List MatchRecord))
    (pre : List SeqRecord) (bad : SeqRecord) (post : List SeqRecord)
    (e : String)
    (hok : ∀ r ∈ pre, ∃ v, scan r.seq = Except.ok v)
    (hbad : scan bad.seq = Except.error e) :
    mapScan scan (pre ++ bad :: post) = Except.error e := by
  induction pre with
  | nil => simp only [List.nil_append, mapScan, hbad]
  | cons r rest ih =>
      obtain ⟨v, hv⟩ := hok r (List.mem_cons_self r rest)
      simp only [List.cons_append, mapScan, hv]
      simp only [List.append_eq]
      rw [ih (fun x hx => hok x (List.mem_cons_of_mem r hx))]

/-- C9.  If scanning any one sequence of a batch fails, the whole batch
call fails with that error — no partial table, nothing caught. -/
theorem analyze_batch_fails
    (scan : List Char → Except String (List MatchRecord))
    (pre : List SeqRecord) (bad : SeqRecord) (post : List SeqRecord)
    (e : String)
    (hok : ∀ r ∈ pre, ∃ v, scan r.seq = Except.ok v)
    (hbad : scan bad.seq = Except.error e) :
    analyze_sequences_parallelE scan (pre ++ bad :: post) =
      Except.error e := by
  simp only [analyze_sequences_parallelE,
    mapScan_error scan pre bad post e hok hbad]

/-- C9 witness: a two-sequence batch whose second scan fails. -/
theorem analyze_batch_fails_witness :
    analyze_sequences_parallelE
      (fun s => if s = str "T" then Except.error "boom" else Except.ok [])
      ([SeqRecord.mk (str "s1") (str "A")] ++
        SeqRecord.mk (str "s2") (str "T") :: []) = Except.error "boom" :=
  analyze_batch_fails _ _ _ _ _
    (by
      intro r hr
      rw [List.mem_singleton] at hr
      subst hr
      exact ⟨[], rfl⟩)
    rfl

/-- Unfolding equation of the matcher on a concatenation. -/
theorem matchRE_seq (a b : RE) (s : List Char) (pos : Nat) (caps : Caps) :
    matchRE (RE.seq a b) s pos caps =
      (matchRE a s pos caps).flatMap fun pc => matchRE b s pc.1 pc.2 := rfl

/-- Unfolding equation of the matcher on a capturing group. -/
theorem matchRE_group (n : Nat) (r : RE) (s : List Char) (pos : Nat)
    (caps : Caps) :
    matchRE (RE.group n r) s pos caps =
      (matchRE r s pos caps).map fun pc => (pc.1, (n, pos, pc.1) :: pc.2) := rfl

/-- Group 1 of an inverted-repeat capture list. -/
theorem groupText_shape1 (s : List Char) (g e s0 p1 : Nat) :
    groupText s [(2, g, e), (1, s0, p1)] 1 = listSlice s s0 p1 := by
  simp [groupText, lookupCap]

/-- Group 2 of an inverted-repeat capture list. -/
theorem groupText_shape2 (s : List Char) (g e s0 p1 : Nat) :
    groupText s [(2, g, e), (1, s0, p1)] 2 = listSlice s g e := by
  simp [groupText, lookupCap]

/-- Every inverted-repeat candidate match captures group 1 starting at the
match start, group 2 ending at the match end, with blocks of at least three
residues around the gap. -/
theorem irPattern_shape (s : List Char) (pos : Nat) (caps0 : Caps)
    (pc : Nat × Caps) (h : pc ∈ matchRE irPattern s pos caps0) :
    ∃ p1 g, pc.2 = (2, g, pc.1) :: (1, pos, p1) :: caps0 ∧
      pos + 3 ≤ p1 ∧ p1 ≤ g ∧ g + 3 ≤ pc.1 := by
  rw [irPattern, matchRE_seq] at h
  simp only [List.mem_flatMap] at h
  obtain ⟨pc1, hpc1, h⟩ := h
  rw [matchRE_group] at hpc1
  simp only [List.mem_map] at hpc1
  obtain ⟨q1, hq1, hpc1eq⟩ := hpc1
  have hq1caps : q1.2 = caps0 := rep_cls_caps _ _ _ _ _ _ _ hq1
  have hq1min := matchRE_minLen _ _ _ _ _ hq1
  rw [matchRE_seq] at h
  simp only [List.mem_flatMap] at h
  obtain ⟨pc2, hpc2, h⟩ := h
  have hpc2caps : pc2.2 = pc1.2 := rep_cls_caps _ _ _ _ _ _ _ hpc2
  have hpc2mono := matchRE_mono _ _ _ _ _ hpc2
  rw [matchRE_group] at h
  simp only [List.mem_map] at h
  obtain ⟨q3, hq3, heq⟩ := h
  have hq3caps : q3.2 = pc2.2 := rep_cls_caps _ _ _ _ _ _ _ hq3
  have hq3min := matchRE_minLen _ _ _ _ _ hq3
  simp only [minLen] at hq1min hq3min
  refine ⟨q1.1, pc2.1, ?_, ?_, ?_, ?_⟩
  · rw [← heq]
    simp only [hq3caps, hpc2caps, ← hpc1eq, hq1caps]
  · omega
  · rw [← hpc1eq] at hpc2mono
    exact hpc2mono
  · rw [← heq]
    simp only []
    omega

/-- C3.  A record is emitted by `find_inverted_repeats` exactly when the
non-overlapping scan produced a candidate whose first block (group 1,
starting at the match start) equals the literal character-reversal of its
second block (group 2, ending at the match end), and the record then spans
start-of-part1 through end-of-part2; candidates failing the reversal test
produce no record. -/
theorem find_inverted_repeats_characterization (s : List Char)
    (rec : MatchRecord) :
    rec ∈ find_inverted_repeats s ↔
      ∃ t ∈ finditer irPattern s, ∃ p1 g,
        t.2.2 = [(2, g, t.2.1), (1, t.1, p1)] ∧
        t.1 + 3 ≤ p1 ∧ p1 ≤ g ∧ g + 3 ≤ t.2.1 ∧
        listSlice s t.1 p1 = (listSlice s g t.2.1).reverse ∧
        rec = { Motif := str "Inverted Repeat", Start := t.1 + 1,
                End := t.2.1, MatchedSequence := listSlice s t.1 t.2.1 } := by
  constructor
  · intro h
    simp only [find_inverted_repeats, List.mem_filterMap] at h
    obtain ⟨t, ht, hrec⟩ := h
    have hmm := head?_mem (finditer_mem irPattern s t ht).2
    obtain ⟨p1, g, hcaps, hb1, hb2, hb3⟩ :=
      irPattern_shape s t.1 [] (t.2.1, t.2.2) hmm
    simp only at hcaps hb3
    refine ⟨t, ht, p1, g, hcaps, hb1, hb2, hb3, ?_⟩
    rw [hcaps, groupText_shape1, groupText_shape2] at hrec
    split at hrec
    · next hcond =>
        simp only [Option.some.injEq] at hrec
        exact ⟨hcond, hrec.symm⟩
    · simp at hrec
  · intro h
    obtain ⟨t, ht, p1, g, hcaps, hb1, hb2, hb3, hrev, hrec⟩ := h
    simp only [find_inverted_repeats, List.mem_filterMap]
    refine ⟨t, ht, ?_⟩
    rw [hcaps, groupText_shape1, groupText_shape2, if_pos hrev, hrec]

/-! ### Behaviour on all-ATGC input

On input consisting only of A, T, G, C every character-class test of the
inverted-repeat pattern succeeds, so the matcher's candidate lists can be
computed in closed form: a greedy repetition of `[ATGC]` started at `pos`
yields exactly the end positions from its upper bound down to its lower
bound.  `descFrom hi n` is the `n`-element descending list starting at
`hi`; `descList hi lo` counts down from `hi` to `lo`. -/

def descFrom : Nat → Nat → List Nat
  | _, 0 => []
  | hi, n + 1 => hi :: descFrom (hi - 1) n

def descList (hi lo : Nat) : List Nat := descFrom hi (hi + 1 - lo)

/-- Peeling the last element of a descending run. -/
theorem descFrom_succ : ∀ (n hi : Nat), n ≤ hi →
    descFrom hi (n + 1) = descFrom hi n ++ [hi - n] := by
  intro n
  induction n with
  | zero => intro hi _; simp [descFrom]
  | succ n ih =>
      intro hi hn
      rw [show n + 1 + 1 = (n + 1) + 1 from rfl, descFrom, ih (hi - 1) (by omega)]
      rw [descFrom]
      simp only [List.cons_append]
      have heq : hi - 1 - n = hi - (n + 1) := by omega
      rw [heq]

/-- Counting down to `lo` is counting down to `lo + 1` and then `lo`. -/
theorem descList_append (hi lo : Nat) (h : lo ≤ hi) :
    descList hi lo = descList hi (lo + 1) ++ [lo] := by
  unfold descList
  rw [show hi + 1 - lo = (hi - lo) + 1 from by omega]
  rw [descFrom_succ (hi - lo) hi (by omega)]
  congr 2
  · omega
  · omega

/-- A one-step descent. -/
theorem descList_self (m : Nat) : descList m m = [m] := by
  unfold descList
  rw [show m + 1 - m = 1 from by omega]
  rfl

/-- An empty descent. -/
theorem descList_nil (hi lo : Nat) (h : hi < lo) : descList hi lo = [] := by
  unfold descList
  rw [show hi + 1 - lo = 0 from by omega]
  rfl

/-- Unfolding a nonempty descent at the top. -/
theorem descList_cons (hi lo : Nat) (h1 : lo ≤ hi) (h2 : 1 ≤ hi) :
    descList hi lo = hi :: descList (hi - 1) lo := by
  unfold descList
  rw [show hi + 1 - lo = (hi - lo) + 1 from by omega, descFrom]
  congr 1
  congr 1
  omega

/-- Membership bounds in a descending run. -/
theorem descFrom_mem : ∀ (n hi x : Nat), x ∈ descFrom hi n →
    x ≤ hi ∧ hi + 1 ≤ x + n := by
  intro n
  induction n with
  | zero => intro hi x h; simp [descFrom] at h
  | succ n ih =>
      intro hi x h
      rw [descFrom, List.mem_cons] at h
      rcases h with h | h
      · omega
      · have := ih (hi - 1) x h
        omega

/-- Membership bounds in a descent. -/
theorem descList_mem (hi lo x : Nat) (h : x ∈ descList hi lo) :
    lo ≤ x ∧ x ≤ hi := by
  have := descFrom_mem _ _ _ h
  omega

/-- A flatMap of empties is empty. -/
theorem flatMap_nil_of {α β : Type _} (l : List α) (f : α → List β)
    (h : ∀ x ∈ l, f x = []) : l.flatMap f = [] := by
  induction l with
  | nil => rfl
  | cons x rest ih =>
      rw [List.flatMap_cons, h x (List.mem_cons_self x rest),
        List.nil_append]
      exact ih (fun y hy => h y (List.mem_cons_of_mem x hy))

/-- Entries above `m` contribute nothing, so a descent from `hi` collapses
to a descent from `m`. -/
theorem flatMap_descList_skip {β : Type _} (f : Nat → List β) (m : Nat) :
    ∀ (d hi lo : Nat), hi = m + d → (∀ p, m < p → p ≤ hi → f p = []) →
      (descList hi lo).flatMap f = (descList m lo).flatMap f := by
  intro d
  induction d with
  | zero =>
      intro hi lo hhi _
      have : hi = m := by omega
      rw [this]
  | succ d ih =>
      intro hi lo hhi hf
      by_cases hlo : lo ≤ hi
      · rw [descList_cons hi lo hlo (by omega), List.flatMap_cons,
          hf hi (by omega) (le_refl hi), List.nil_append]
        exact ih (hi - 1) lo (by omega) (fun p h1 h2 => hf p h1 (by omega))
      · rw [descList_nil hi lo (by omega), descList_nil m lo (by omega)]

/-- Unfolding equation of the matcher on a character class. -/
theorem matchRE_cls (cs : List Char) (s : List Char) (pos : Nat)
    (caps : Caps) :
    matchRE (RE.cls cs) s pos caps =
      if pos < s.length ∧ chAt s pos ∈ cs then [(pos + 1, caps)] else [] := rfl

/-- Unfolding equation of the matcher on a repetition. -/
theorem matchRE_rep (r : RE) (k : Nat) (m : Option Nat) (s : List Char)
    (pos : Nat) (caps : Caps) :
    matchRE (RE.rep r k m) s pos caps =
      repMat (fun p c => matchRE r s p c) s.length k m pos caps := rfl

/-- On all-ATGC input the class `[ATGC]` consumes any in-range position. -/
theorem cls_atgc (s : List Char) (h : ∀ c ∈ s, c ∈ str "ATGC")
    (pos : Nat) (caps : Caps) :
    matchRE (RE.cls (str "ATGC")) s pos caps =
      if pos < s.length then [(pos + 1, caps)] else [] := by
  rw [matchRE_cls]
  by_cases hp : pos < s.length
  · have hch : chAt s pos ∈ str "ATGC" := by
      have : chAt s pos ∈ s := by
        rw [chAt, List.getD_eq_getElem s '?' hp]
        exact List.getElem_mem hp
      exact h _ this
    rw [if_pos ⟨hp, hch⟩, if_pos hp]
  · rw [if_neg (fun hc => hp hc.1), if_neg hp]

/-- On all-ATGC input, `k` mandatory `[ATGC]` iterations consume exactly
`k` characters, when they fit. -/
theorem minMat_atgc (s : List Char) (h : ∀ c ∈ s, c ∈ str "ATGC") :
    ∀ (k pos : Nat) (caps : Caps), pos ≤ s.length →
      minMat (fun p c => matchRE (RE.cls (str "ATGC")) s p c) k pos caps =
        if pos + k ≤ s.length then [(pos + k, caps)] else [] := by
  intro k
  induction k with
  | zero =>
      intro pos caps hpos
      simp [minMat, hpos]
  | succ k ih =>
      intro pos caps hpos
      rw [minMat, cls_atgc s h]
      by_cases hp : pos < s.length
      · rw [if_pos hp]
        simp only [List.flatMap_cons, List.flatMap_nil, List.append_nil]
        rw [ih (pos + 1) caps (by omega)]
        have : pos + 1 + k = pos + (k + 1) := by omega
        rw [this]
      · rw [if_neg hp]
        rw [if_neg (by omega)]
        rfl

/-- Highest end position an optionally-bounded `[ATGC]` tail can reach. -/
def gapTop (slen : Nat) (maxr : Option Nat) (pos : Nat) : Nat :=
  match maxr with
  | none => slen
  | some m => min slen (pos + m)

/-- Decrementing the budget while advancing keeps the top fixed. -/
theorem gapTop_dec (slen : Nat) (maxr : Option Nat) (pos : Nat)
    (h : maxr ≠ some 0) :
    gapTop slen (decMax maxr) (pos + 1) = gapTop slen maxr pos := by
  rcases maxr with _ | m
  · rfl
  · have hm : m ≠ 0 := fun hc => h (by rw [hc])
    simp only [decMax, gapTop]
    congr 1
    omega

/-- The top of the reachable range is at or after the start. -/
theorem gapTop_ge (slen : Nat) (maxr : Option Nat) (pos : Nat)
    (h : pos ≤ slen) : pos ≤ gapTop slen maxr pos := by
  rcases maxr with _ | m
  · exact h
  · exact le_min h (Nat.le_add_right pos m)

/-- At the end of the input the reachable range collapses. -/
theorem gapTop_end (slen : Nat) (maxr : Option Nat) (pos : Nat)
    (h : pos = slen) : gapTop slen maxr pos = pos := by
  rcases maxr with _ | m
  · exact h.symm
  · simp only [gapTop]
    omega

/-- On all-ATGC input the greedy `[ATGC]` tail produces exactly the
descending end positions from its reachable top down to its start. -/
theorem starMat_atgc (s : List Char) (h : ∀ c ∈ s, c ∈ str "ATGC") :
    ∀ (fuel : Nat) (maxr : Option Nat) (pos : Nat) (caps : Caps),
      pos ≤ s.length → s.length + 1 ≤ fuel + pos →
      starMat (fun p c => matchRE (RE.cls (str "ATGC")) s p c) s.length
          fuel maxr pos caps =
        (descList (gapTop s.length maxr pos) pos).map fun e => (e, caps) := by
  intro fuel
  induction fuel with
  | zero => intro maxr pos caps hpos hfuel; exfalso; omega
  | succ fuel ih =>
      intro maxr pos caps hpos hfuel
      rw [starMat]
      by_cases hm0 : maxr = some 0
      · subst hm0
        rw [if_pos rfl, List.nil_append]
        have : gapTop s.length (some 0) pos = pos := by
          simp only [gapTop]; omega
        rw [this, descList_self]
        rfl
      · rw [if_neg hm0, cls_atgc s h]
        by_cases hp : pos < s.length
        · rw [if_pos hp]
          simp only [List.flatMap_cons, List.flatMap_nil, List.append_nil]
          rw [if_pos ⟨by omega, by omega⟩]
          rw [ih (decMax maxr) (pos + 1) caps (by omega) (by omega)]
          rw [gapTop_dec s.length maxr pos hm0]
          rw [descList_append (gapTop s.length maxr pos) pos
            (gapTop_ge s.length maxr pos hpos)]
          rw [List.map_append]
          rfl
        · rw [if_neg hp]
          simp only [List.flatMap_nil, List.nil_append]
          rw [gapTop_end s.length maxr pos (by omega), descList_self]
          rfl

/-- On all-ATGC input a greedy repetition `[ATGC]{k,m?}` yields, in greedy
order, the end positions from its reachable top down to `pos + k`. -/
theorem rep_atgc (s : List Char) (h : ∀ c ∈ s, c ∈ str "ATGC")
    (k : Nat) (m : Option Nat) (pos : Nat) (caps : Caps)
    (hpos : pos ≤ s.length) :
    matchRE (RE.rep (RE.cls (str "ATGC")) k m) s pos caps =
      if pos + k ≤ s.length then
        (descList (gapTop s.length (m.map (· - k)) (pos + k)) (pos + k)).map
          fun e => (e, caps)
      else [] := by
  rw [matchRE_rep]
  unfold repMat
  rw [minMat_atgc s h k pos caps hpos]
  by_cases hk : pos + k ≤ s.length
  · rw [if_pos hk, if_pos hk]
    simp only [List.flatMap_cons, List.flatMap_nil, List.append_nil]
    exact starMat_atgc s h (s.length + 1 - (pos + k)) (m.map (· - k))
      (pos + k) caps hk (by omega)
  · rw [if_neg hk, if_neg hk]
    rfl

/-- The reachable top never exceeds the input length. -/
theorem gapTop_le (slen : Nat) (maxr : Option Nat) (pos : Nat) :
    gapTop slen maxr pos ≤ slen := by
  rcases maxr with _ | m
  · exact le_refl slen
  · exact min_le_left _ _

/-- On all-ATGC input shorter than six residues past `pos`, the
inverted-repeat pattern has no match at `pos`: the greedy first block
leaves fewer than three residues for the second block. -/
theorem ir_atgc_nomatch (s : List Char) (h : ∀ c ∈ s, c ∈ str "ATGC")
    (pos : Nat) (hpos : pos ≤ s.length) (h6 : s.length < pos + 6) :
    matchRE irPattern s pos [] = [] := by
  rw [irPattern, matchRE_seq]
  apply flatMap_nil_of
  intro pc1 hpc1
  rw [matchRE_group] at hpc1
  simp only [List.mem_map] at hpc1
  obtain ⟨q1, hq1, hpc1eq⟩ := hpc1
  rw [rep_atgc s h 3 none pos [] hpos] at hq1
  by_cases h3 : pos + 3 ≤ s.length
  case neg => rw [if_neg h3] at hq1; simp at hq1
  rw [if_pos h3] at hq1
  simp only [List.mem_map] at hq1
  obtain ⟨e1, he1, hq1eq⟩ := hq1
  have he1b := descList_mem _ _ _ he1
  have hgt := gapTop_le s.length (Option.map (· - 3) none) (pos + 3)
  subst hpc1eq
  subst hq1eq
  simp only []
  rw [matchRE_seq]
  apply flatMap_nil_of
  intro pc2 hpc2
  rw [rep_atgc s h 0 (some 10) e1 _ (by omega)] at hpc2
  rw [if_pos (by omega)] at hpc2
  simp only [List.mem_map] at hpc2
  obtain ⟨g, hg, hpc2eq⟩ := hpc2
  have hgb := descList_mem _ _ _ hg
  have hgle := gapTop_le s.length (Option.map (· - 0) (some 10)) (e1 + 0)
  subst hpc2eq
  simp only []
  rw [matchRE_group]
  rw [rep_atgc s h 3 none g _ (by omega)]
  rw [if_neg (by omega)]
  rfl

/-- After a first block ending past `length - 3`, no second block fits. -/
theorem ir_inner_nil (s : List Char) (h : ∀ c ∈ s, c ∈ str "ATGC")
    (c1 : Caps) (e1 : Nat) (he : e1 ≤ s.length) (hgt : s.length < e1 + 3) :
    matchRE (RE.seq (RE.rep (RE.cls (str "ATGC")) 0 (some 10))
        (RE.group 2 (RE.rep (RE.cls (str "ATGC")) 3 none))) s e1 c1 = [] := by
  rw [matchRE_seq]
  apply flatMap_nil_of
  intro pc2 hpc2
  rw [rep_atgc s h 0 (some 10) e1 c1 he, if_pos (by omega)] at hpc2
  simp only [List.mem_map] at hpc2
  obtain ⟨g, hg, hpc2eq⟩ := hpc2
  have hgb := descList_mem _ _ _ hg
  have hgle := gapTop_le s.length (Option.map (· - 0) (some 10)) (e1 + 0)
  subst hpc2eq
  simp only []
  rw [matchRE_group, rep_atgc s h 3 none g c1 (by omega),
    if_neg (by omega : ¬g + 3 ≤ s.length)]
  rfl

/-- A first block ending exactly at `length - 3` leaves exactly one way to
finish: empty gap, second block of the last three residues. -/
theorem ir_inner_full (s : List Char) (h : ∀ c ∈ s, c ∈ str "ATGC")
    (c1 : Caps) (h3 : 3 ≤ s.length) :
    matchRE (RE.seq (RE.rep (RE.cls (str "ATGC")) 0 (some 10))
        (RE.group 2 (RE.rep (RE.cls (str "ATGC")) 3 none))) s
      (s.length - 3) c1 =
      [(s.length, (2, s.length - 3, s.length) :: c1)] := by
  rw [matchRE_seq, rep_atgc s h 0 (some 10) (s.length - 3) c1 (by omega),
    if_pos (by omega)]
  have hgt : gapTop s.length (Option.map (· - 0) (some 10))
      (s.length - 3 + 0) = s.length := by
    simp only [Option.map_some', gapTop]
    omega
  rw [hgt, show s.length - 3 + 0 = s.length - 3 from by omega]
  simp only [List.flatMap_map, Function.comp]
  rw [flatMap_descList_skip _ (s.length - 3) 3 s.length (s.length - 3)
      (by omega)
      (fun p h1 h2 => by
        show matchRE (RE.group 2 (RE.rep (RE.cls (str "ATGC")) 3 none))
          s p c1 = []
        rw [matchRE_group, rep_atgc s h 3 none p c1 (by omega),
          if_neg (by omega : ¬p + 3 ≤ s.length)]
        rfl)]
  rw [descList_self]
  simp only [List.flatMap_cons, List.flatMap_nil, List.append_nil]
  show (matchRE (RE.group 2 (RE.rep (RE.cls (str "ATGC")) 3 none)) s
    (s.length - 3) c1) = _
  rw [matchRE_group, rep_atgc s h 3 none (s.length - 3) c1 (by omega),
    show s.length - 3 + 3 = s.length from by omega,
    if_pos (le_refl s.length)]
  have hgt2 : gapTop s.length (Option.map (· - 3) none) s.length =
      s.length := by
    simp [gapTop]
  rw [hgt2, descList_self]
  rfl

/-- On all-ATGC input with at least six residues from `pos`, the engine's
reported match at `pos` runs to the end of the input, with the first block
greedily taking everything except the final three residues. -/
theorem ir_atgc_head (s : List Char) (h : ∀ c ∈ s, c ∈ str "ATGC")
    (pos : Nat) (h6 : pos + 6 ≤ s.length) :
    (matchRE irPattern s pos []).head? =
      some (s.length,
        [(2, s.length - 3, s.length), (1, pos, s.length - 3)]) := by
  rw [irPattern, matchRE_seq, matchRE_group,
    rep_atgc s h 3 none pos [] (by omega), if_pos (by omega)]
  have hgt : gapTop s.length (Option.map (· - 3) none) (pos + 3) =
      s.length := by
    simp [gapTop]
  rw [hgt]
  simp only [List.map_map, List.flatMap_map, Function.comp]
  rw [flatMap_descList_skip _ (s.length - 3) 3 s.length (pos + 3) (by omega)
      (fun p h1 h2 => ir_inner_nil s h [(1, pos, p)] p h2 (by omega))]
  rw [descList_cons (s.length - 3) (pos + 3) (by omega) (by omega),
    List.flatMap_cons]
  rw [ir_inner_full s h [(1, pos, s.length - 3)] (by omega)]
  rfl

/-- On all-ATGC input the scan finds nothing once fewer than six residues
remain. -/
theorem finditerAux_ir_nil (s : List Char) (h : ∀ c ∈ s, c ∈ str "ATGC") :
    ∀ fuel pos, s.length < pos + 6 → finditerAux irPattern s fuel pos = [] := by
  intro fuel
  induction fuel with
  | zero => intro pos hp; rfl
  | succ fuel ih =>
      intro pos hp
      rw [finditerAux]
      by_cases hpos : s.length < pos
      · rw [if_pos hpos]
      · rw [if_neg hpos]
        rw [ir_atgc_nomatch s h pos (by omega) hp]
        exact ih (pos + 1) (by omega)

/-- On all-ATGC input the inverted-repeat scan reports exactly one match —
the whole input, first block all but the last three residues — when the
input has at least six residues, and none otherwise. -/
theorem finditer_ir_atgc (s : List Char) (h : ∀ c ∈ s, c ∈ str "ATGC") :
    finditer irPattern s =
      if 6 ≤ s.length then
        [(0, s.length, [(2, s.length - 3, s.length), (1, 0, s.length - 3)])]
      else [] := by
  by_cases h6 : 6 ≤ s.length
  · rw [if_pos h6]
    show finditerAux irPattern s (s.length + 2) 0 = _
    rw [show s.length + 2 = (s.length + 1) + 1 from rfl, finditerAux]
    rw [if_neg (by omega : ¬s.length < 0)]
    rw [ir_atgc_head s h 0 (by omega)]
    dsimp only
    rw [if_pos (⟨by omega, le_refl s.length⟩ :
      0 < s.length ∧ s.length ≤ s.length)]
    rw [finditerAux_ir_nil s h (s.length + 1) s.length (by omega)]
  · rw [if_neg h6]
    exact finditerAux_ir_nil s h (s.length + 2) 0 (by omega)

/-- On all-ATGC input with at least seven residues the detector reports
nothing: the greedy first block has more than three residues, so the
reversal test fails on length grounds alone. -/
theorem fir_atgc_large (s : List Char) (h : ∀ c ∈ s, c ∈ str "ATGC")
    (h7 : 7 ≤ s.length) : find_inverted_repeats s = [] := by
  have hne : ¬(groupText s
        [(2, s.length - 3, s.length), (1, 0, s.length - 3)] 1 =
      (groupText s
        [(2, s.length - 3, s.length), (1, 0, s.length - 3)] 2).reverse) := by
    rw [groupText_shape1, groupText_shape2]
    intro heq
    have hl := congrArg List.length heq
    simp only [listSlice, List.length_reverse, List.length_take,
      List.length_drop] at hl
    omega
  simp only [find_inverted_repeats]
  rw [finditer_ir_atgc s h, if_pos (show (6 : Nat) ≤ s.length from by omega)]
  simp only [List.filterMap_cons, List.filterMap_nil]
  rw [if_neg hne]

/-- Prefix slices concatenate. -/
theorem listSlice_split (s : List Char) (m : Nat) :
    listSlice s 0 m ++ listSlice s m s.length = listSlice s 0 s.length := by
  simp only [listSlice, List.drop_zero, Nat.sub_zero]
  rw [show s.length - m = (s.drop m).length from (List.length_drop m s).symm,
    List.take_length, List.take_append_drop, List.take_length]

/-- C10.  On input made only of A, T, G, C, every record the detector emits
spans exactly six residues — `End - Start + 1 = 6` — and its matched text
is two three-residue blocks with an empty gap, the first the literal
reversal of the second: the greedy first block absorbs everything except
the last three residues, so the reversal test can only pass when both
blocks have length three and the gap is empty. -/
theorem ir_all_atgc_span (s : List Char) (h : ∀ c ∈ s, c ∈ str "ATGC")
    (rec : MatchRecord) (hrec : rec ∈ find_inverted_repeats s) :
    rec.End - rec.Start + 1 = 6 ∧
      ∃ b1 b2 : List Char, rec.MatchedSequence = b1 ++ b2 ∧
        b1.length = 3 ∧ b2.length = 3 ∧ b1 = b2.reverse := by
  by_cases h6 : 6 ≤ s.length
  case neg =>
    exfalso
    simp only [find_inverted_repeats] at hrec
    rw [finditer_ir_atgc s h, if_neg h6] at hrec
    simp at hrec
  by_cases h7 : 7 ≤ s.length
  case pos => rw [fir_atgc_large s h h7] at hrec; simp at hrec
  have hL : s.length = 6 := by omega
  simp only [find_inverted_repeats] at hrec
  rw [finditer_ir_atgc s h, if_pos h6] at hrec
  simp only [List.mem_filterMap, List.mem_singleton] at hrec
  obtain ⟨t, ht, hft⟩ := hrec
  subst ht
  rw [groupText_shape1, groupText_shape2] at hft
  split at hft
  · next hcond =>
      simp only [Option.some.injEq] at hft
      subst hft
      refine ⟨by dsimp only; omega,
        listSlice s 0 (s.length - 3), listSlice s (s.length - 3) s.length,
        (listSlice_split s (s.length - 3)).symm, ?_, ?_, hcond⟩
      · simp only [listSlice, List.drop_zero, Nat.sub_zero,
          List.length_take]
        omega
      · simp only [listSlice, List.length_take, List.length_drop]
        omega
  · simp at hft

/-- C10 witness: the record on "ATTTTA" (blocks "ATT" and "TTA"). -/
theorem ir_all_atgc_span_witness :
    (MatchRecord.mk (str "Inverted Repeat") 1 6 (str "ATTTTA")).End -
        (MatchRecord.mk (str "Inverted Repeat") 1 6 (str "ATTTTA")).Start +
        1 = 6 ∧
      ∃ b1 b2 : List Char,
        (MatchRecord.mk (str "Inverted Repeat") 1 6
          (str "ATTTTA")).MatchedSequence = b1 ++ b2 ∧
        b1.length = 3 ∧ b2.length = 3 ∧ b1 = b2.reverse :=
  ir_all_atgc_span (str "ATTTTA") (by decide)
    (MatchRecord.mk (str "Inverted Repeat") 1 6 (str "ATTTTA")) (by decide)

/-- C2 counterexample: with the concrete all-ATGC filler "AAAAAAAAAA" the
sequence "ATGCAT" + filler + "TACGTA" yields no inverted-repeat record at
all — not exactly one as claimed. -/
theorem ir_scenario_cex :
    (find_inverted_repeats (str "ATGCATAAAAAAAAAATACGTA")).length ≠ 1 := by
  rw [fir_atgc_large (str "ATGCATAAAAAAAAAATACGTA") (by decide) (by decide)]
  decide

/-- C2 amended.  On "ATGCAT" + any ten ATGC residues + "TACGTA" the
detector returns no match (the greedy first block takes nineteen of the
twenty-two residues, so the reversal test fails), and likewise with the
trailing block changed to "TACGTG". -/
theorem ir_scenario_amended (filler : List Char) (hlen : filler.length = 10)
    (hf : ∀ c ∈ filler, c ∈ str "ATGC") :
    find_inverted_repeats (str "ATGCAT" ++ filler ++ str "TACGTA") = [] ∧
      find_inverted_repeats (str "ATGCAT" ++ filler ++ str "TACGTG") = [] := by
  have hpre : ∀ c ∈ str "ATGCAT", c ∈ str "ATGC" := by decide
  have hsufA : ∀ c ∈ str "TACGTA", c ∈ str "ATGC" := by decide
  have hsufG : ∀ c ∈ str "TACGTG", c ∈ str "ATGC" := by decide
  constructor
  · apply fir_atgc_large
    · intro c hc
      simp only [List.mem_append] at hc
      rcases hc with (hc | hc) | hc
      · exact hpre c hc
      · exact hf c hc
      · exact hsufA c hc
    · simp only [List.length_append, hlen]
      decide
  · apply fir_atgc_large
    · intro c hc
      simp only [List.mem_append] at hc
      rcases hc with (hc | hc) | hc
      · exact hpre c hc
      · exact hf c hc
      · exact hsufG c hc
    · simp only [List.length_append, hlen]
      decide

/-- C2 amended witness: the filler "AAAAAAAAAA". -/
theorem ir_scenario_amended_witness :
    find_inverted_repeats
        (str "ATGCAT" ++ str "AAAAAAAAAA" ++ str "TACGTA") = [] ∧
      find_inverted_repeats
        (str "ATGCAT" ++ str "AAAAAAAAAA" ++ str "TACGTG") = [] :=
  ir_scenario_amended (str "AAAAAAAAAA") (by decide) (by decide)
